import Mathlib

/-!
Shallow embedding of the `secret-santa` program (`src/main.rs`) and proofs
about its constraint encoder, input validation and solution diversifier.

The program encodes the secret-santa rules as a boolean formula over
`Pair` literals (one literal per directed giver→receiver edge) and asks an
incremental SAT oracle for models.  We embed each constraint-building
function as the *satisfaction predicate* it imposes on a total truth
assignment `m : Pair T → Bool`, and the diversifier loop in `main` as a
fuel-bounded recursion over an abstract oracle.
-/

namespace SecretSanta

/-- The `Pair<T>` struct of the source: an ordered giver→receiver edge,
used both as SAT literal and as plain data. -/
structure Pair (T : Type) where
  giver : T
  receiver : T
deriving DecidableEq

/-- Pairs are in bijection with products; used only to obtain a `Fintype`
instance for finite identifier types. -/
def pairEquivProd (T : Type) : T × T ≃ Pair T where
  toFun x := ⟨x.1, x.2⟩
  invFun p := (p.giver, p.receiver)
  left_inv _ := rfl
  right_inv _ := rfl

instance (T : Type) [Fintype T] : Fintype (Pair T) :=
  Fintype.ofEquiv _ (pairEquivProd T)

/-- The `Person` struct: a name plus a contact address. -/
structure Person where
  name : String
  email : String
deriving DecidableEq

/-- The `Solution` struct: one history entry (`year`, the
`exclude_pairs` flag, and the pairs assigned that year). -/
structure Solution where
  year : Nat
  exclude_pairs : Bool
  pairs : List (Pair String)
deriving DecidableEq

/-- The `Input` struct: the roster plus the rule lists. -/
structure Input where
  people : List Person
  whitelist : List (Pair String)
  blacklist : List (Pair String)
  blacklist_sets : List (List String)
  history : List Solution
deriving DecidableEq

/-- Embeds `Input::check_history`: confirms every giver and receiver named in a
history entry occurs in the people list.  The source panics on the first
unresolved name; we model "panics" as returning `false`. -/
def Input.check_history (input : Input) : Bool :=
  input.history.all fun solution =>
    solution.pairs.all fun pair =>
      (input.people.any fun p => p.name == pair.giver) &&
      (input.people.any fun p => p.name == pair.receiver)

variable {T : Type}

/-- First constraint group of `encode_secret_santa_rules`: for every
participant `p`, `ExactlyK {k:1}` over the literals `(p, x)` for all `x`
in the universe — `p` gives exactly once.  Satisfaction of an
`ExactlyK 1` constraint over a literal list means exactly one listed
literal is assigned true. -/
def exactlyOneGivers (univ : List T) (m : Pair T → Bool) : Bool :=
  univ.all fun p => (univ.map fun x => Pair.mk p x).countP m == 1

/-- Second constraint group: for every participant `r`, exactly one of
the literals `(x, r)` is true — `r` receives exactly once. -/
def exactlyOneReceivers (univ : List T) (m : Pair T → Bool) : Bool :=
  univ.all fun r => (univ.map fun x => Pair.mk x r).countP m == 1

/-- Third constraint of `encode_secret_santa_rules`: `Not(Or(lits))` over
the self-loop literals `(p, p)` — no one gives to themselves.  A model
satisfies `Not(Or lits)` exactly when no listed literal is true. -/
def noSelf (univ : List T) (m : Pair T → Bool) : Bool :=
  !((univ.map fun p => Pair.mk p p).any m)

/-- Fourth constraint group ("Don't have small cycles"): for `p` ranging
over the universe and `j` ranging from `p` (inclusive) to the end,
`If {cond: (p,j), then: Not (j,p)}`.  The structural recursion visits
exactly the index pairs `p ≤ j` of the source's nested loops. -/
def noSmallCycles (m : Pair T → Bool) : List T → Bool
  | [] => true
  | x :: xs =>
      ((x :: xs).all fun y => !(m (Pair.mk x y)) || !(m (Pair.mk y x))) &&
      noSmallCycles m xs

/-- Satisfaction predicate of the formula built by
`encode_secret_santa_rules(universe, encoder)`. -/
def encode_secret_santa_rules (univ : List T) (m : Pair T → Bool) : Bool :=
  exactlyOneGivers univ m && exactlyOneReceivers univ m &&
  noSelf univ m && noSmallCycles m univ

/-- Embeds `include_pairs`: `And(lits)` — every listed literal is forced true. -/
def include_pairs (lits : List (Pair T)) (m : Pair T → Bool) : Bool :=
  lits.all m

/-- Embeds `exclude_pairs`: `Not(Or(lits))` — every listed literal is forced
false. -/
def exclude_pairs (lits : List (Pair T)) (m : Pair T → Bool) : Bool :=
  !(lits.any m)

/-- Embeds `exclude_pairs_symmetric`: excludes the listed pairs and each pair
with giver and receiver swapped. -/
def exclude_pairs_symmetric (lits : List (Pair T)) (m : Pair T → Bool) : Bool :=
  exclude_pairs lits m &&
  exclude_pairs (lits.map fun p => Pair.mk p.receiver p.giver) m

/-- The `accum` vector built by `exclude_sets`: all pairs
`(people[x], people[y])` for indices `x ≤ y`, in the source's loop
order. -/
def setsAccum : List T → List (Pair T)
  | [] => []
  | x :: xs => ((x :: xs).map fun y => Pair.mk x y) ++ setsAccum xs

/-- Embeds `exclude_sets`: symmetric exclusion of the full `x ≤ y` cross
product of a blacklist group, hence of every ordered pair (including
self-pairs) over the group. -/
def exclude_sets (people : List T) (m : Pair T → Bool) : Bool :=
  exclude_pairs_symmetric (setsAccum people) m

/-- Embeds `extract_pos`: keeps the variables the model marks positive.  A
model is a truth assignment `m` over the variable list `vars`. -/
def extract_pos (vars : List (Pair T)) (m : Pair T → Bool) : List (Pair T) :=
  vars.filter m

/-- Satisfaction predicate of the full formula `main` builds before the
solve loop: the base rules over the participant names, `exclude_sets`
for each blacklist group, `exclude_pairs` for the blacklist,
`include_pairs` for the whitelist, and `exclude_pairs` for each
history entry whose `exclude_pairs` flag is set.  (`main` sorts the
history by descending year first; a conjunction over the history list
is invariant under that reordering, so the sort is omitted here.) -/
def inputConstraints (input : Input) (m : Pair String → Bool) : Bool :=
  encode_secret_santa_rules (input.people.map Person.name) m &&
  (input.blacklist_sets.all fun s => exclude_sets s m) &&
  exclude_pairs input.blacklist m &&
  include_pairs input.whitelist m &&
  (input.history.all fun sol => !sol.exclude_pairs || exclude_pairs sol.pairs m)

/-- The solve loop of `main` (`for _ in 0..100 { if let Some(model) =
encoder.solve() ... }`).  The oracle is abstracted as a function of the
exclusion constraints added so far inside the loop — which are exactly
the solutions already found, since each success adds
`exclude_pairs(pairs)`.  Returns the accumulated solutions and the
number of `solve` invocations performed. -/
def solveLoop (oracle : List (List (Pair T)) → Option (List (Pair T))) :
    Nat → List (List (Pair T)) → List (List (Pair T)) × Nat
  | 0, sols => (sols, 0)
  | n + 1, sols =>
      match oracle sols with
      | some pairs =>
          let r := solveLoop oracle n (sols ++ [pairs])
          (r.1, r.2 + 1)
      | none =>
          let r := solveLoop oracle n sols
          (r.1, r.2 + 1)

/-- The `solutions` vector after the 100-iteration solve loop of
`main`, starting from no found solutions. -/
def solutionsOf (oracle : List (List (Pair T)) → Option (List (Pair T))) :
    List (List (Pair T)) :=
  (solveLoop oracle 100 []).1

/-- Number of `encoder.solve()` calls the loop performs. -/
def solveCalls (oracle : List (List (Pair T)) → Option (List (Pair T))) : Nat :=
  (solveLoop oracle 100 []).2

/-- The `solutions.is_empty()` test after the loop: `true` means `main`
prints "No secret santa solutions found!" and exits with status 1;
`false` means it continues to the success path. -/
def noSolutionsExit (sols : List (List (Pair T))) : Bool :=
  sols.isEmpty

/-! ### Concrete fixtures -/

/-- Universe of three distinct participants, standing for {A, B, C}. -/
def univ3 : List (Fin 3) := [0, 1, 2]

/-- The nine literals the encoder introduces for three participants. -/
def allPairs3 : List (Pair (Fin 3)) :=
  [⟨0, 0⟩, ⟨0, 1⟩, ⟨0, 2⟩, ⟨1, 0⟩, ⟨1, 1⟩, ⟨1, 2⟩, ⟨2, 0⟩, ⟨2, 1⟩, ⟨2, 2⟩]

/-- The 3-cycle A→B, B→C, C→A. -/
def cycle1 : List (Pair (Fin 3)) := [⟨0, 1⟩, ⟨1, 2⟩, ⟨2, 0⟩]

/-- The 3-cycle A→C, C→B, B→A. -/
def cycle2 : List (Pair (Fin 3)) := [⟨0, 2⟩, ⟨2, 1⟩, ⟨1, 0⟩]

/-- The model whose true literals are exactly `cycle1`. -/
def mCyc1 : Pair (Fin 3) → Bool := fun q => decide (q ∈ cycle1)

/-- The model whose true literals are exactly `cycle2`. -/
def mCyc2 : Pair (Fin 3) → Bool := fun q => decide (q ∈ cycle2)

/-- The assignment extracted from the model `mCyc1`. -/
def ex1 : List (Pair (Fin 3)) := extract_pos allPairs3 mCyc1

/-- The assignment extracted from the model `mCyc2`. -/
def ex2 : List (Pair (Fin 3)) := extract_pos allPairs3 mCyc2

/-! ### More fixtures -/

/-- The `Input` record the `--write-default` branch of `main` builds:
people John/Sean/Shane, blacklist group {John, Sean}, whitelist pair
Sean→Shane, blacklist pair Sean→Shane, and one exclusion-flagged 2024
history entry. -/
def defaultInput : Input where
  people := [⟨"John", "john@email.com"⟩, ⟨"Sean", "sean@email.com"⟩,
             ⟨"Shane", "shane@email.com"⟩]
  whitelist := [⟨"Sean", "Shane"⟩]
  blacklist := [⟨"Sean", "Shane"⟩]
  blacklist_sets := [["John", "Sean"]]
  history := [⟨2024, true, [⟨"John", "Shane"⟩, ⟨"Sean", "John"⟩, ⟨"Shane", "Sean"⟩]⟩]

/-- A satisfiable input exercising whitelist, blacklist and a flagged
history entry. -/
def richInput : Input where
  people := [⟨"A", "a@x"⟩, ⟨"B", "b@x"⟩, ⟨"C", "c@x"⟩]
  whitelist := [⟨"A", "B"⟩]
  blacklist := [⟨"A", "C"⟩]
  blacklist_sets := []
  history := [⟨2024, true, [⟨"B", "A"⟩]⟩]

/-- The 3-cycle model A→B, B→C, C→A over the names of `richInput`. -/
def mRich : Pair String → Bool :=
  fun q => decide (q ∈ ([⟨"A", "B"⟩, ⟨"B", "C"⟩, ⟨"C", "A"⟩] : List (Pair String)))

/-- An input whose whitelist references the name Bob, absent from the
participant set. -/
def cexInput : Input where
  people := [⟨"Alice", "alice@x"⟩]
  whitelist := [⟨"Bob", "Alice"⟩]
  blacklist := []
  blacklist_sets := []
  history := []

/-- An input whose history references the name Bob, absent from the
participant set. -/
def cexInput2 : Input where
  people := [⟨"Alice", "alice@x"⟩]
  whitelist := []
  blacklist := []
  blacklist_sets := []
  history := [⟨2024, true, [⟨"Bob", "Alice"⟩]⟩]

/-- An oracle that returns the first 3-cycle once and then reports
unsatisfiable. -/
def oracle3W : List (List (Pair (Fin 3))) → Option (List (Pair (Fin 3))) :=
  fun sols => match sols with
  | [] => some cycle1
  | _ => none

/-! ### Helper lemmas about the encoder -/

lemma countP_eq_one_elim {α : Type} {l : List α} {p : α → Bool}
    (h : l.countP p = 1) :
    ∃ b ∈ l, p b = true ∧ ∀ c ∈ l, p c = true → c = b := by
  rw [List.countP_eq_length_filter] at h
  obtain ⟨b, hb⟩ := List.length_eq_one.mp h
  have hbmem : b ∈ l.filter p := by simp [hb]
  refine ⟨b, (List.mem_filter.mp hbmem).1, (List.mem_filter.mp hbmem).2, ?_⟩
  intro c hc hpc
  have : c ∈ l.filter p := List.mem_filter.mpr ⟨hc, hpc⟩
  rw [hb] at this
  simpa using this

lemma exactlyOneGivers_elim {univ : List T} {m : Pair T → Bool}
    (h : exactlyOneGivers univ m = true) {a : T} (ha : a ∈ univ) :
    ∃ b ∈ univ, m (Pair.mk a b) = true ∧
      ∀ c ∈ univ, m (Pair.mk a c) = true → c = b := by
  rw [exactlyOneGivers, List.all_eq_true] at h
  have hc := h a ha
  rw [beq_iff_eq, List.countP_map] at hc
  obtain ⟨b, hb, hpb, huniq⟩ := countP_eq_one_elim hc
  exact ⟨b, hb, hpb, fun c hcmem hmc => huniq c hcmem hmc⟩

lemma exactlyOneReceivers_elim {univ : List T} {m : Pair T → Bool}
    (h : exactlyOneReceivers univ m = true) {a : T} (ha : a ∈ univ) :
    ∃ b ∈ univ, m (Pair.mk b a) = true ∧
      ∀ c ∈ univ, m (Pair.mk c a) = true → c = b := by
  rw [exactlyOneReceivers, List.all_eq_true] at h
  have hc := h a ha
  rw [beq_iff_eq, List.countP_map] at hc
  obtain ⟨b, hb, hpb, huniq⟩ := countP_eq_one_elim hc
  exact ⟨b, hb, hpb, fun c hcmem hmc => huniq c hcmem hmc⟩

lemma noSelf_elim {univ : List T} {m : Pair T → Bool}
    (h : noSelf univ m = true) {a : T} (ha : a ∈ univ) :
    m (Pair.mk a a) = false := by
  rw [noSelf, Bool.not_eq_eq_eq_not, Bool.not_true, List.any_eq_false] at h
  have := h (Pair.mk a a) (List.mem_map.mpr ⟨a, ha, rfl⟩)
  simpa using this

lemma noSmallCycles_elim {m : Pair T → Bool} :
    ∀ (l : List T), noSmallCycles m l = true →
      ∀ a ∈ l, ∀ b ∈ l, m (Pair.mk a b) = true → m (Pair.mk b a) = false := by
  intro l
  induction l with
  | nil => intro _ a ha; exact absurd ha (List.not_mem_nil a)
  | cons x xs ih =>
      intro h a ha b hb hab
      rw [noSmallCycles, Bool.and_eq_true, List.all_eq_true] at h
      obtain ⟨hhead, htail⟩ := h
      rcases List.mem_cons.mp ha with ha1 | ha2
      · subst ha1
        have hh := hhead b hb
        rcases Bool.or_eq_true _ _ |>.mp hh with h1 | h1
        · rw [Bool.not_eq_eq_eq_not, Bool.not_true, hab] at h1; cases h1
        · simpa using h1
      · rcases List.mem_cons.mp hb with hb1 | hb2
        · subst hb1
          have hh := hhead a (List.mem_cons_of_mem _ ha2)
          rcases Bool.or_eq_true _ _ |>.mp hh with h1 | h1
          · simpa using h1
          · rw [Bool.not_eq_eq_eq_not, Bool.not_true, hab] at h1; cases h1
        · exact ih htail a ha2 b hb2 hab

lemma encode_elim {univ : List T} {m : Pair T → Bool}
    (h : encode_secret_santa_rules univ m = true) :
    exactlyOneGivers univ m = true ∧ exactlyOneReceivers univ m = true ∧
      noSelf univ m = true ∧ noSmallCycles m univ = true := by
  rw [encode_secret_santa_rules] at h
  simpa [Bool.and_eq_true, and_assoc] using h

lemma exclude_pairs_elim {lits : List (Pair T)} {m : Pair T → Bool}
    (h : exclude_pairs lits m = true) : ∀ q ∈ lits, m q = false := by
  rw [exclude_pairs, Bool.not_eq_eq_eq_not, Bool.not_true, List.any_eq_false] at h
  intro q hq
  simpa using h q hq

lemma include_pairs_elim {lits : List (Pair T)} {m : Pair T → Bool}
    (h : include_pairs lits m = true) : ∀ q ∈ lits, m q = true := by
  rw [include_pairs, List.all_eq_true] at h
  exact h

lemma setsAccum_mem : ∀ (s : List T) {a b : T}, a ∈ s → b ∈ s →
    Pair.mk a b ∈ setsAccum s ∨ Pair.mk b a ∈ setsAccum s := by
  intro s
  induction s with
  | nil => intro a b ha _; exact absurd ha (List.not_mem_nil a)
  | cons x xs ih =>
      intro a b ha hb
      rw [setsAccum]
      rcases List.mem_cons.mp ha with ha1 | ha2
      · subst ha1
        exact Or.inl (List.mem_append_left _ (List.mem_map.mpr ⟨b, hb, rfl⟩))
      · rcases List.mem_cons.mp hb with hb1 | hb2
        · subst hb1
          exact Or.inr (List.mem_append_left _
            (List.mem_map.mpr ⟨a, List.mem_cons_of_mem _ ha2, rfl⟩))
        · rcases ih ha2 hb2 with hh | hh
          · exact Or.inl (List.mem_append_right _ hh)
          · exact Or.inr (List.mem_append_right _ hh)

lemma exclude_sets_elim {s : List T} {m : Pair T → Bool}
    (h : exclude_sets s m = true) :
    ∀ a ∈ s, ∀ b ∈ s, m (Pair.mk a b) = false := by
  rw [exclude_sets, exclude_pairs_symmetric, Bool.and_eq_true] at h
  obtain ⟨hfwd, hswp⟩ := h
  intro a ha b hb
  rcases setsAccum_mem s ha hb with hh | hh
  · exact exclude_pairs_elim hfwd _ hh
  · have := exclude_pairs_elim hswp (Pair.mk a b) (List.mem_map.mpr ⟨Pair.mk b a, hh, rfl⟩)
    exact this

lemma inputConstraints_elim {input : Input} {m : Pair String → Bool}
    (h : inputConstraints input m = true) :
    encode_secret_santa_rules (input.people.map Person.name) m = true ∧
    (∀ s ∈ input.blacklist_sets, exclude_sets s m = true) ∧
    exclude_pairs input.blacklist m = true ∧
    include_pairs input.whitelist m = true ∧
    (∀ sol ∈ input.history, sol.exclude_pairs = true →
        exclude_pairs sol.pairs m = true) := by
  rw [inputConstraints] at h
  simp only [Bool.and_eq_true, List.all_eq_true] at h
  obtain ⟨⟨⟨⟨h1, h2⟩, h3⟩, h4⟩, h5⟩ := h
  refine ⟨h1, h2, h3, h4, ?_⟩
  intro sol hsol hflag
  have := h5 sol hsol
  rcases Bool.or_eq_true _ _ |>.mp this with hh | hh
  · rw [Bool.not_eq_eq_eq_not, Bool.not_true] at hh
    exact absurd hflag (by simp [hh])
  · exact hh

/-! ### Helper lemmas about the solve loop -/

lemma solveLoop_calls (oracle : List (List (Pair T)) → Option (List (Pair T))) :
    ∀ (n : Nat) (sols : List (List (Pair T))), (solveLoop oracle n sols).2 = n := by
  intro n
  induction n with
  | zero => intro sols; rfl
  | succ k ih =>
      intro sols
      rw [solveLoop]
      cases oracle sols with
      | some pairs => simp [ih]
      | none => simp [ih]

lemma solveLoop_stalled {oracle : List (List (Pair T)) → Option (List (Pair T))}
    {sols : List (List (Pair T))} (h : oracle sols = none) :
    ∀ n : Nat, (solveLoop oracle n sols).1 = sols := by
  intro n
  induction n with
  | zero => rfl
  | succ k ih => rw [solveLoop, h]; simpa using ih

lemma solveLoop_const_none {oracle : List (List (Pair T)) → Option (List (Pair T))}
    (h : ∀ s, oracle s = none) (n : Nat) (sols : List (List (Pair T))) :
    (solveLoop oracle n sols).1 = sols :=
  solveLoop_stalled (h sols) n

lemma solveLoop_invariant (oracle : List (List (Pair T)) → Option (List (Pair T)))
    (P : List (List (Pair T)) → Prop)
    (hstep : ∀ sols pairs, P sols → oracle sols = some pairs → P (sols ++ [pairs])) :
    ∀ (n : Nat) (sols : List (List (Pair T))), P sols → P ((solveLoop oracle n sols).1) := by
  intro n
  induction n with
  | zero => intro sols hP; exact hP
  | succ k ih =>
      intro sols hP
      rw [solveLoop]
      cases ho : oracle sols with
      | some pairs => simpa using ih (sols ++ [pairs]) (hstep sols pairs hP ho)
      | none => simpa using ih sols hP

lemma solveLoop_const_some_nil {oracle : List (List (Pair T)) → Option (List (Pair T))}
    (h : ∀ s, oracle s = some []) :
    ∀ (n : Nat) (sols : List (List (Pair T))),
      (solveLoop oracle n sols).1 = sols ++ List.replicate n [] := by
  intro n
  induction n with
  | zero => intro sols; simp [solveLoop]
  | succ k ih =>
      intro sols
      rw [solveLoop, h]
      simp only [ih (sols ++ [[]]), List.append_assoc]
      rw [List.replicate_succ]
      rfl

/-! ### Helper lemmas for the three-participant scenario -/

set_option maxRecDepth 10000 in
set_option maxHeartbeats 4000000 in
lemma encode3_char : ∀ m : Pair (Fin 3) → Bool,
    encode_secret_santa_rules univ3 m = true ↔
      ((∀ q, m q = mCyc1 q) ∨ (∀ q, m q = mCyc2 q)) := by decide

lemma disj_ne {β : Type} {A B : List β} (hR : ∀ q ∈ A, q ∉ B) (hA : A ≠ []) :
    A ≠ B := by
  cases A with
  | nil => exact absurd rfl hA
  | cons q rest =>
      intro hEq
      exact hR q (List.mem_cons_self q rest) (hEq ▸ List.mem_cons_self q rest)

lemma length_le_two_of_two_values {β : Type} {x y : β} {l : List β}
    (hmem : ∀ L ∈ l, L = x ∨ L = y) (hne : l.Pairwise fun A B => A ≠ B) :
    l.length ≤ 2 := by
  by_contra hlen
  push_neg at hlen
  match l, hlen with
  | a :: b :: c :: t, _ =>
      rw [List.pairwise_cons] at hne
      obtain ⟨hna, hne⟩ := hne
      rw [List.pairwise_cons] at hne
      obtain ⟨hnb, _⟩ := hne
      have hab : a ≠ b := hna b (List.mem_cons_self b (c :: t))
      have hac : a ≠ c := hna c (List.mem_cons_of_mem _ (List.mem_cons_self c t))
      have hbc : b ≠ c := hnb c (List.mem_cons_self c t)
      have ha := hmem a (List.mem_cons_self a _)
      have hb := hmem b (List.mem_cons_of_mem _ (List.mem_cons_self b _))
      have hc := hmem c (List.mem_cons_of_mem _ (List.mem_cons_of_mem _ (List.mem_cons_self c t)))
      rcases ha with rfl | rfl <;> rcases hb with hb | hb <;> rcases hc with hc | hc <;>
        simp_all

/-! ### Unsatisfiability of small universes -/

lemma encode_one_unsat (a : T) (m : Pair T → Bool) :
    encode_secret_santa_rules [a] m = false := by
  cases hma : m (Pair.mk a a) <;>
    simp [encode_secret_santa_rules, exactlyOneGivers, exactlyOneReceivers, noSelf,
      noSmallCycles, List.countP_cons, List.countP_nil, hma]

lemma encode_two_unsat (a b : T) (m : Pair T → Bool) :
    encode_secret_santa_rules [a, b] m = false := by
  cases h1 : m (Pair.mk a a) <;> cases h2 : m (Pair.mk a b) <;>
    cases h3 : m (Pair.mk b a) <;> cases h4 : m (Pair.mk b b) <;>
      simp [encode_secret_santa_rules, exactlyOneGivers, exactlyOneReceivers, noSelf,
        noSmallCycles, List.countP_cons, List.countP_nil, h1, h2, h3, h4]

/-- If no model satisfies the constraints a sound oracle answers for,
the loop accumulates nothing. -/
lemma solutionsOf_empty_of_unsat {C : (Pair T → Bool) → Prop}
    {oracle : List (List (Pair T)) → Option (List (Pair T))}
    (hsound : ∀ sols pairs, oracle sols = some pairs → ∃ m, C m)
    (hunsat : ∀ m, ¬ C m) : solutionsOf oracle = [] := by
  have hnone : ∀ s, oracle s = none := by
    intro s
    cases ho : oracle s with
    | none => rfl
    | some pairs =>
        obtain ⟨m, hm⟩ := hsound s pairs ho
        exact absurd hm (hunsat m)
  simp [solutionsOf, solveLoop_const_none hnone]

/-! ### Claim theorems -/

/-- C1: for every model of the formula built by
`encode_secret_santa_rules`, the extracted Assignment (the set of pairs
the model marks true) has every participant as giver in exactly one
pair and as receiver in exactly one pair, contains no pair with equal
giver and receiver, and never contains both (A,B) and (B,A). -/
theorem c1_assignment_invariants {T : Type} (univ : List T) (m : Pair T → Bool)
    (h : encode_secret_santa_rules univ m = true) :
    (∀ a ∈ univ, ∃ b ∈ univ, m (Pair.mk a b) = true ∧
        ∀ c ∈ univ, m (Pair.mk a c) = true → c = b) ∧
    (∀ a ∈ univ, ∃ b ∈ univ, m (Pair.mk b a) = true ∧
        ∀ c ∈ univ, m (Pair.mk c a) = true → c = b) ∧
    (∀ a ∈ univ, m (Pair.mk a a) = false) ∧
    (∀ a ∈ univ, ∀ b ∈ univ, m (Pair.mk a b) = true → m (Pair.mk b a) = false) := by
  obtain ⟨h1, h2, h3, h4⟩ := encode_elim h
  exact ⟨fun a ha => exactlyOneGivers_elim h1 ha,
         fun a ha => exactlyOneReceivers_elim h2 ha,
         fun a ha => noSelf_elim h3 ha,
         fun a ha b hb => noSmallCycles_elim univ h4 a ha b hb⟩

/-- Witness for C1: the three-participant universe with the 3-cycle
model satisfies the hypothesis, and the invariants hold there. -/
theorem c1_witness :
    (∀ a ∈ univ3, ∃ b ∈ univ3, mCyc1 (Pair.mk a b) = true ∧
        ∀ c ∈ univ3, mCyc1 (Pair.mk a c) = true → c = b) ∧
    (∀ a ∈ univ3, ∃ b ∈ univ3, mCyc1 (Pair.mk b a) = true ∧
        ∀ c ∈ univ3, mCyc1 (Pair.mk c a) = true → c = b) ∧
    (∀ a ∈ univ3, mCyc1 (Pair.mk a a) = false) ∧
    (∀ a ∈ univ3, ∀ b ∈ univ3, mCyc1 (Pair.mk a b) = true →
        mCyc1 (Pair.mk b a) = false) :=
  c1_assignment_invariants univ3 mCyc1 (by decide)

/-- C2 counterexample: `cexInput` references the name Bob in its
whitelist while Bob is absent from the participant set, yet validation
(`check_history`, the only pre-encoding name check the program performs)
accepts the input, so no fatal configuration error is raised. -/
theorem c2_counterexample :
    (cexInput.whitelist.all fun p =>
        cexInput.people.any fun q => q.name == p.giver) = false ∧
    cexInput.check_history = true := by decide

/-- C2 amended: only history references are validated: for every input
in which some giver or receiver named in a history entry is absent from
the participant set, `check_history` fails (the program panics before
any encoding); names referenced only in whitelist, blacklist, or
blacklist-group rules are not validated. -/
theorem c2_history_validation (input : Input)
    (h : ∃ sol ∈ input.history, ∃ p ∈ sol.pairs,
        (∀ q ∈ input.people, q.name ≠ p.giver) ∨
        (∀ q ∈ input.people, q.name ≠ p.receiver)) :
    input.check_history = false := by
  obtain ⟨sol, hsol, p, hp, hmiss⟩ := h
  rw [Input.check_history]
  by_contra hc
  rw [Bool.not_eq_false, List.all_eq_true] at hc
  have hsolAll := hc sol hsol
  rw [List.all_eq_true] at hsolAll
  have hpair := hsolAll p hp
  rw [Bool.and_eq_true, List.any_eq_true, List.any_eq_true] at hpair
  obtain ⟨⟨qg, hqg, hqgname⟩, qr, hqr, hqrname⟩ := hpair
  rcases hmiss with hm | hm
  · exact hm qg hqg (by simpa using hqgname)
  · exact hm qr hqr (by simpa using hqrname)

/-- Witness for C2 (amended): a concrete input whose history names Bob,
who is not a participant, is rejected by validation. -/
theorem c2_witness : cexInput2.check_history = false :=
  c2_history_validation cexInput2 (by decide)

/-- C3: in one diversification run, the edge sets of any two
Assignments at distinct positions are disjoint, because after each
found Assignment every one of its individual edges is excluded from all
future models. -/
theorem c3_solutions_edge_disjoint {T : Type}
    (oracle : List (List (Pair T)) → Option (List (Pair T)))
    (hsound : ∀ sols pairs, oracle sols = some pairs →
        ∀ L ∈ sols, ∀ q ∈ L, q ∉ pairs) :
    (solutionsOf oracle).Pairwise fun A B => ∀ q ∈ A, q ∉ B := by
  have hinv := solveLoop_invariant oracle
    (fun sols => sols.Pairwise fun A B => ∀ q ∈ A, q ∉ B)
    (fun sols pairs hP ho => by
      show List.Pairwise (fun A B => ∀ q ∈ A, q ∉ B) (sols ++ [pairs])
      rw [List.pairwise_append]
      refine ⟨hP, List.pairwise_singleton _ _, fun A hA B hB => ?_⟩
      rw [List.mem_singleton] at hB
      subst hB
      exact hsound sols B ho A hA)
    100 [] List.Pairwise.nil
  simpa [solutionsOf] using hinv

/-- Witness for C3: an oracle that returns one assignment and then
reports unsatisfiable satisfies the soundness hypothesis. -/
theorem c3_witness :
    (solutionsOf oracle3W).Pairwise fun A B => ∀ q ∈ A, q ∉ B :=
  c3_solutions_edge_disjoint oracle3W (fun sols pairs h L hL q hq => by
    cases sols with
    | nil => exact absurd hL (List.not_mem_nil L)
    | cons s ss => simp [oracle3W] at h)

/-- C4: every pair forbidden by the blacklist, by a blacklist group (in
both directions, self-pairs included), or by an exclusion-flagged
history entry is assigned false by every model of the input's formula,
hence absent from every produced Assignment. -/
theorem c4_forbidden_pairs_absent (input : Input) (m : Pair String → Bool)
    (h : inputConstraints input m = true) :
    (∀ q ∈ input.blacklist, m q = false) ∧
    (∀ s ∈ input.blacklist_sets, ∀ a ∈ s, ∀ b ∈ s, m (Pair.mk a b) = false) ∧
    (∀ sol ∈ input.history, sol.exclude_pairs = true →
        ∀ q ∈ sol.pairs, m q = false) := by
  obtain ⟨_, hsets, hbl, _, hhist⟩ := inputConstraints_elim h
  exact ⟨exclude_pairs_elim hbl,
         fun s hs => exclude_sets_elim (hsets s hs),
         fun sol hsol hflag => exclude_pairs_elim (hhist sol hsol hflag)⟩

/-- Witness for C4: a concrete satisfiable input with a blacklist and a
flagged history entry, and a model of its formula. -/
theorem c4_witness :
    (∀ q ∈ richInput.blacklist, mRich q = false) ∧
    (∀ s ∈ richInput.blacklist_sets, ∀ a ∈ s, ∀ b ∈ s,
        mRich (Pair.mk a b) = false) ∧
    (∀ sol ∈ richInput.history, sol.exclude_pairs = true →
        ∀ q ∈ sol.pairs, mRich q = false) :=
  c4_forbidden_pairs_absent richInput mRich (by decide)

/-- C5: every whitelist pair is assigned true by every model of the
input's formula, hence present in every produced Assignment. -/
theorem c5_whitelist_always_present (input : Input) (m : Pair String → Bool)
    (h : inputConstraints input m = true) :
    ∀ q ∈ input.whitelist, m q = true := by
  obtain ⟨_, _, _, hwl, _⟩ := inputConstraints_elim h
  exact include_pairs_elim hwl

/-- Witness for C5 at the concrete input `richInput`, model `mRich`, and
the whitelist pair A→B. -/
theorem c5_witness : mRich (Pair.mk "A" "B") = true :=
  c5_whitelist_always_present richInput mRich (by decide) (Pair.mk "A" "B")
    (by decide)

/-- C6 counterexample: with an oracle that reports unsatisfiable already
on the very first attempt, the loop still performs all 100 solve calls
(and not just 1), refuting "after the oracle first reports
unsatisfiability, no further solve calls occur". -/
theorem c6_counterexample :
    (fun _ : List (List (Pair (Fin 3))) =>
        (none : Option (List (Pair (Fin 3))))) [] = none ∧
    solveCalls (fun _ : List (List (Pair (Fin 3))) => none) = 100 ∧
    (100 : Nat) ≠ 1 :=
  ⟨rfl, solveLoop_calls _ 100 [], by decide⟩

/-- C6 amended: the loop performs exactly one solve call per iteration —
100 in all, never short-circuiting — but whenever the oracle reports
unsatisfiable for the currently accumulated constraints, no further
Assignment is ever added, so the accumulated result set is final. -/
theorem c6_no_short_circuit {T : Type}
    (oracle : List (List (Pair T)) → Option (List (Pair T)))
    (sols : List (List (Pair T))) (n : Nat) (h : oracle sols = none) :
    (solveLoop oracle n sols).1 = sols ∧ (solveLoop oracle n sols).2 = n :=
  ⟨solveLoop_stalled h n, solveLoop_calls oracle n sols⟩

/-- Witness for C6 (amended) at the always-unsatisfiable oracle. -/
theorem c6_witness :
    (solveLoop (fun _ : List (List (Pair (Fin 3))) =>
        (none : Option (List (Pair (Fin 3))))) 100 []).1 = [] ∧
    (solveLoop (fun _ : List (List (Pair (Fin 3))) =>
        (none : Option (List (Pair (Fin 3))))) 100 []).2 = 100 :=
  c6_no_short_circuit _ [] 100 rfl

/-- C7: for three participants and no extra rules, the models of the
encoded constraints are exactly the two 3-cycles, and consequently one
diversification run (with a sound oracle) accumulates at most two
Assignments. -/
theorem c7_three_participants :
    (∀ m : Pair (Fin 3) → Bool,
      encode_secret_santa_rules univ3 m = true ↔
        ((∀ q, m q = mCyc1 q) ∨ (∀ q, m q = mCyc2 q))) ∧
    (∀ oracle : List (List (Pair (Fin 3))) → Option (List (Pair (Fin 3))),
      (∀ sols pairs, oracle sols = some pairs →
        ∃ m : Pair (Fin 3) → Bool,
          encode_secret_santa_rules univ3 m = true ∧
          (∀ L ∈ sols, exclude_pairs L m = true) ∧
          pairs = extract_pos allPairs3 m) →
      (solutionsOf oracle).length ≤ 2) := by
  refine ⟨encode3_char, fun oracle hsound => ?_⟩
  have hinv := solveLoop_invariant oracle
    (fun sols => (∀ L ∈ sols, L = ex1 ∨ L = ex2) ∧
        sols.Pairwise fun A B => ∀ q ∈ A, q ∉ B)
    (fun sols pairs hP ho => by
      obtain ⟨m, hm, hexcl, hpc⟩ := hsound sols pairs ho
      have hval : pairs = ex1 ∨ pairs = ex2 := by
        rcases (encode3_char m).mp hm with hfun | hfun
        · exact Or.inl (by
            rw [hpc, ex1, extract_pos, extract_pos]
            exact List.filter_congr fun q _ => hfun q)
        · exact Or.inr (by
            rw [hpc, ex2, extract_pos, extract_pos]
            exact List.filter_congr fun q _ => hfun q)
      constructor
      · intro L hL
        rcases List.mem_append.mp hL with hL | hL
        · exact hP.1 L hL
        · rw [List.mem_singleton] at hL
          exact hL ▸ hval
      · rw [List.pairwise_append]
        refine ⟨hP.2, List.pairwise_singleton _ _, fun A hA B hB => ?_⟩
        rw [List.mem_singleton] at hB
        subst hB
        intro q hq hqB
        have hqm : m q = true := (List.mem_filter.mp (hpc ▸ hqB)).2
        have := exclude_pairs_elim (hexcl A hA) q hq
        rw [this] at hqm
        cases hqm)
    100 [] ⟨by simp, List.Pairwise.nil⟩
  have hmem : ∀ L ∈ solutionsOf oracle, L = ex1 ∨ L = ex2 := by
    simpa [solutionsOf] using hinv.1
  have hdisj : (solutionsOf oracle).Pairwise fun A B => ∀ q ∈ A, q ∉ B := by
    simpa [solutionsOf] using hinv.2
  have hne : (solutionsOf oracle).Pairwise fun A B => A ≠ B := by
    refine List.Pairwise.imp_of_mem ?_ hdisj
    intro A B hA _ hR
    have : A ≠ [] := by
      rcases hmem A hA with rfl | rfl <;> decide
    exact disj_ne hR this
  exact length_le_two_of_two_values hmem hne

/-- Witness for C7: the always-unsatisfiable oracle is sound, and its
run yields at most two Assignments. -/
theorem c7_witness :
    (solutionsOf (fun _ : List (List (Pair (Fin 3))) =>
        (none : Option (List (Pair (Fin 3)))))).length ≤ 2 :=
  c7_three_participants.2 _ (fun _ _ h => Option.noConfusion h)

/-- C8: the default template written by `--write-default` whitelists and
blacklists the same pair Sean→Shane, its encoded formula is
unsatisfiable, and running the solve loop on it with any sound oracle
yields an empty result collection and the no-solutions exit path. -/
theorem c8_default_template_unsat
    (oracle : List (List (Pair String)) → Option (List (Pair String)))
    (hsound : ∀ sols pairs, oracle sols = some pairs →
        ∃ m : Pair String → Bool, inputConstraints defaultInput m = true) :
    (Pair.mk "Sean" "Shane" ∈ defaultInput.whitelist ∧
     Pair.mk "Sean" "Shane" ∈ defaultInput.blacklist) ∧
    (∀ m : Pair String → Bool, inputConstraints defaultInput m = false) ∧
    solutionsOf oracle = [] ∧
    noSolutionsExit (solutionsOf oracle) = true := by
  have hunsat : ∀ m : Pair String → Bool,
      inputConstraints defaultInput m = false := by
    intro m
    by_contra hc
    rw [Bool.not_eq_false] at hc
    obtain ⟨_, _, hbl, hwl, _⟩ := inputConstraints_elim hc
    have h1 := include_pairs_elim hwl (Pair.mk "Sean" "Shane") (by decide)
    have h2 := exclude_pairs_elim hbl (Pair.mk "Sean" "Shane") (by decide)
    rw [h1] at h2
    cases h2
  have hempty : solutionsOf oracle = [] :=
    solutionsOf_empty_of_unsat hsound (fun m hm => by rw [hunsat m] at hm; cases hm)
  refine ⟨⟨by decide, by decide⟩, hunsat, hempty, by rw [hempty]; rfl⟩

/-- Witness for C8 at the trivially sound always-unsatisfiable oracle. -/
theorem c8_witness :
    (Pair.mk "Sean" "Shane" ∈ defaultInput.whitelist ∧
     Pair.mk "Sean" "Shane" ∈ defaultInput.blacklist) ∧
    (∀ m : Pair String → Bool, inputConstraints defaultInput m = false) ∧
    solutionsOf (fun _ : List (List (Pair String)) =>
        (none : Option (List (Pair String)))) = [] ∧
    noSolutionsExit (solutionsOf (fun _ : List (List (Pair String)) =>
        (none : Option (List (Pair String))))) = true :=
  c8_default_template_unsat _ (fun _ _ h => Option.noConfusion h)

/-- C9: for a universe of exactly one participant, or exactly two
distinct participants, the base constraints are unsatisfiable, so a
sound oracle's run accumulates nothing and the program takes the
no-solutions non-zero exit path. -/
theorem c9_small_universes_unsat {T : Type} (a b : T) (_hab : a ≠ b)
    (oracle1 oracle2 : List (List (Pair T)) → Option (List (Pair T)))
    (h1 : ∀ sols pairs, oracle1 sols = some pairs →
        ∃ m : Pair T → Bool, encode_secret_santa_rules [a] m = true)
    (h2 : ∀ sols pairs, oracle2 sols = some pairs →
        ∃ m : Pair T → Bool, encode_secret_santa_rules [a, b] m = true) :
    (∀ m : Pair T → Bool, encode_secret_santa_rules [a] m = false) ∧
    (∀ m : Pair T → Bool, encode_secret_santa_rules [a, b] m = false) ∧
    solutionsOf oracle1 = [] ∧ noSolutionsExit (solutionsOf oracle1) = true ∧
    solutionsOf oracle2 = [] ∧ noSolutionsExit (solutionsOf oracle2) = true := by
  have he1 : solutionsOf oracle1 = [] :=
    solutionsOf_empty_of_unsat h1
      (fun m hm => by rw [encode_one_unsat a m] at hm; cases hm)
  have he2 : solutionsOf oracle2 = [] :=
    solutionsOf_empty_of_unsat h2
      (fun m hm => by rw [encode_two_unsat a b m] at hm; cases hm)
  exact ⟨fun m => encode_one_unsat a m, fun m => encode_two_unsat a b m,
         he1, by rw [he1]; rfl, he2, by rw [he2]; rfl⟩

/-- Witness for C9 at participants 0 and 1 with the always-unsatisfiable
oracle. -/
theorem c9_witness :
    (∀ m : Pair Nat → Bool, encode_secret_santa_rules [0] m = false) ∧
    (∀ m : Pair Nat → Bool, encode_secret_santa_rules [0, 1] m = false) ∧
    solutionsOf (fun _ : List (List (Pair Nat)) =>
        (none : Option (List (Pair Nat)))) = [] ∧
    noSolutionsExit (solutionsOf (fun _ : List (List (Pair Nat)) =>
        (none : Option (List (Pair Nat))))) = true ∧
    solutionsOf (fun _ : List (List (Pair Nat)) =>
        (none : Option (List (Pair Nat)))) = [] ∧
    noSolutionsExit (solutionsOf (fun _ : List (List (Pair Nat)) =>
        (none : Option (List (Pair Nat))))) = true :=
  c9_small_universes_unsat 0 1 (by decide) _ _
    (fun _ _ h => Option.noConfusion h) (fun _ _ h => Option.noConfusion h)

/-- C10: with an empty participant list the encoded base formula is
satisfied by every model, a sound-and-complete oracle succeeds on every
one of the 100 attempts with the empty model, the loop accumulates 100
identical empty Assignments, and the program takes the success path. -/
theorem c10_empty_universe
    (oracle : List (List (Pair String)) → Option (List (Pair String)))
    (hsound : ∀ sols pairs, oracle sols = some pairs →
        ∃ m : Pair String → Bool, pairs = extract_pos [] m)
    (hcomplete : ∀ sols, oracle sols = none →
        ¬ ∃ m : Pair String → Bool,
            encode_secret_santa_rules ([] : List String) m = true ∧
            ∀ L ∈ sols, exclude_pairs L m = true) :
    (∀ m : Pair String → Bool,
        encode_secret_santa_rules ([] : List String) m = true) ∧
    solutionsOf oracle = List.replicate 100 [] ∧
    noSolutionsExit (solutionsOf oracle) = false := by
  have htriv : ∀ m : Pair String → Bool,
      encode_secret_santa_rules ([] : List String) m = true := fun m => rfl
  have hsome : ∀ s, oracle s = some [] := by
    intro s
    cases ho : oracle s with
    | none =>
        exact absurd ⟨fun _ => false, htriv _, fun L hL => by
          simp [exclude_pairs]⟩ (hcomplete s ho)
    | some pairs =>
        obtain ⟨m, hm⟩ := hsound s pairs ho
        rw [hm]
        rfl
  have hrep : solutionsOf oracle = List.replicate 100 [] := by
    have := solveLoop_const_some_nil hsome 100 []
    simpa [solutionsOf] using this
  exact ⟨htriv, hrep, by rw [hrep]; rfl⟩

/-- Witness for C10 at the oracle that always answers with the empty
model. -/
theorem c10_witness :
    (∀ m : Pair String → Bool,
        encode_secret_santa_rules ([] : List String) m = true) ∧
    solutionsOf (fun _ : List (List (Pair String)) =>
        some ([] : List (Pair String))) = List.replicate 100 [] ∧
    noSolutionsExit (solutionsOf (fun _ : List (List (Pair String)) =>
        some ([] : List (Pair String)))) = false :=
  c10_empty_universe _
    (fun _ pairs h => ⟨fun _ => false, by cases h; rfl⟩)
    (fun _ h => Option.noConfusion h)

end SecretSanta
